import Mathlib

/-!
Verification of the n8n-speckle data-transformation core:
reference resolution (`SpeckleReferenceResolver.resolveMissingReferences`),
object filtering (`SpeckleObjectFilter.filterObjects`) and recursive
property flattening (`flattenRecord`), embedded shallowly from the
TypeScript sources.
-/

namespace Speckle

/-- JSON-like values as manipulated by the TypeScript code.  JS `undefined`
does not occur as a stored value in the data handled by the core, so it is
not modelled; numbers are modelled as integers (no claim depends on
numeric arithmetic). -/
inductive JValue : Type where
  | null : JValue
  | bool : Bool → JValue
  | num : Int → JValue
  | str : String → JValue
  | arr : List JValue → JValue
  | obj : List (String × JValue) → JValue
  deriving Repr

/-- First binding of a key in an object's field list (JS objects have at
most one binding per key; property access `o[k]`). -/
def objGet : List (String × JValue) → String → Option JValue
  | [], _ => none
  | (k, v) :: rest, key => if k = key then some v else objGet rest key

/-- JS `key in o`. -/
def hasKey (fs : List (String × JValue)) (k : String) : Bool :=
  (objGet fs k).isSome

/-- Embeds `isRecord` from propertyFlattening.ts:
`value !== null && typeof value === 'object' && !Array.isArray(value)`. -/
def isRecord : JValue → Bool
  | JValue.obj _ => true
  | _ => false

/-- JS `Object.keys` (empty for non-objects, as used on records). -/
def objKeys : JValue → List String
  | JValue.obj fs => fs.map Prod.fst
  | _ => []

/-- Embeds `{...r, [k]: v}`: overwrite in place if `k` is already bound,
otherwise append the new binding at the end (JS object spread plus a
computed key). -/
def setKey (r : List (String × JValue)) (k : String) (v : JValue) :
    List (String × JValue) :=
  if r.any (fun p => p.1 = k) then
    r.map (fun p => if p.1 = k then (k, v) else p)
  else r ++ [(k, v)]

/-- Embeds `{...a, ...b}`: bindings of `b` override those of `a`; keys new to `a`
are appended in `b`'s order. -/
def spread (a b : List (String × JValue)) : List (String × JValue) :=
  b.foldl (fun acc p => setKey acc p.1 p.2) a

/-- Embeds `Set.add` on a string set modelled as a duplicate-free list in
insertion order. -/
def addUnique (acc : List String) (s : String) : List String :=
  if acc.contains s then acc else acc ++ [s]

/-- Embeds `new Set([...a, ...b])`. -/
def setUnion (a b : List String) : List String :=
  b.foldl addUnique a

/-- JS `s.includes(sub)` on the character list. -/
def listContainsSub (sub : List Char) : List Char → Bool
  | [] => sub.isEmpty
  | c :: rest => sub.isPrefixOf (c :: rest) || listContainsSub sub rest

/-- JS `String.prototype.includes`. -/
def jsIncludes (s sub : String) : Bool :=
  listContainsSub sub.data s.data

/-- Split a character list on a separator character; always returns at
least one (possibly empty) group, like JS `String.prototype.split`. -/
def splitCharsOn (c : Char) : List Char → List (List Char)
  | [] => [[]]
  | d :: rest =>
    match splitCharsOn c rest with
    | [] => [[]]
    | grp :: grps => if d = c then [] :: grp :: grps else (d :: grp) :: grps

/-- JS `s.split('.')`. -/
def jsSplitDot (s : String) : List String :=
  (splitCharsOn '.' s.data).map String.mk

/-- JS `parts.join('.')`. -/
def joinDot : List String → String
  | [] => ""
  | [s] => s
  | s :: rest => s ++ "." ++ joinDot rest

/-! ### Property flattening: `src/nodes/Speckle/utils/propertyFlattening.ts` -/

/-- Embeds `EXCLUDED_PATHS` of `isPathExcluded`. -/
def EXCLUDED_PATHS : List String :=
  ["Composite Structure", "Material Quantities",
   "Parameters.Type Parameters.Structure"]

/-- Embeds `isPathExcluded`: the current path contains one of the excluded
substrings. -/
def isPathExcluded (currentPath : String) : Bool :=
  EXCLUDED_PATHS.any (fun p => jsIncludes currentPath p)

/-- Embeds `resolveFieldName` from propertyFlattening.ts: keep the name if free
or if there is no parent path; otherwise append 1, 2, … reversed parent
segments and take the first free candidate, falling back to the last
candidate. -/
def resolveFieldName (fieldName : String) (parentPath : Option String)
    (existingFieldsSet : List String) : String :=
  let currentParentPath := parentPath.getD ""
  if !(existingFieldsSet.contains fieldName) then fieldName
  else if currentParentPath = "" then fieldName
  else
    let pathParts := jsSplitDot currentParentPath
    let reversedParts := pathParts.reverse
    let candidates := (List.range reversedParts.length).map
      (fun depth =>
        fieldName ++ "." ++ joinDot (reversedParts.take (depth + 1)))
    match candidates.find? (fun c => !(existingFieldsSet.contains c)) with
    | some c => c
    | none => candidates.getLastD fieldName

/-- The accumulating state threaded through the flattening recursion:
`FlattenedRecord` and `ExistingFieldsSet`. -/
structure FlattenState where
  record : List (String × JValue)
  fieldsSet : List String
  deriving Repr

/-- JS string coercion applied when a name/value field's `name` (typed
`string | null` in the data model) is used as a property key.  Exact for
strings, numbers, booleans and null; array and object names (outside the
data model, where JS also desynchronises the name set) are collapsed
shallowly. -/
def jsKeyString : JValue → String
  | JValue.str s => s
  | JValue.num n => toString n
  | JValue.bool b => if b then "true" else "false"
  | JValue.null => "null"
  | JValue.obj _ => "[object Object]"
  | JValue.arr _ => ""

/-- Embeds `processNameValueRecord`: skip when `name` is null, otherwise resolve
the name against the parent path and store `value` as-is. -/
def processNameValueRecord (fieldValue : JValue) (currentParentPath : String)
    (state : FlattenState) : FlattenState :=
  let nameField := match fieldValue with
    | JValue.obj fs => (objGet fs "name").getD JValue.null
    | _ => JValue.null
  let valueField := match fieldValue with
    | JValue.obj fs => (objGet fs "value").getD JValue.null
    | _ => JValue.null
  match nameField with
  | JValue.null => state
  | nm =>
    let resolvedName :=
      resolveFieldName (jsKeyString nm) (some currentParentPath) state.fieldsSet
    ⟨setKey state.record resolvedName valueField,
     addUnique state.fieldsSet resolvedName⟩

/-- Embeds `processNullValue`: resolve the field name and store `null`. -/
def processNullValue (fieldName : String) (currentParentPath : String)
    (state : FlattenState) : FlattenState :=
  let resolvedName :=
    resolveFieldName fieldName (some currentParentPath) state.fieldsSet
  ⟨setKey state.record resolvedName JValue.null,
   addUnique state.fieldsSet resolvedName⟩

/-- Embeds `processPrimitiveValue`: resolve the field name and store the
primitive or array value verbatim. -/
def processPrimitiveValue (fieldName : String) (fieldValue : JValue)
    (currentParentPath : String) (state : FlattenState) : FlattenState :=
  let resolvedName :=
    resolveFieldName fieldName (some currentParentPath) state.fieldsSet
  ⟨setKey state.record resolvedName fieldValue,
   addUnique state.fieldsSet resolvedName⟩

/-- Auxiliary size bound: a value looked up in a field list is smaller
than the list. -/
theorem objGet_sizeOf {fs : List (String × JValue)} {key : String} {u : JValue}
    (h : objGet fs key = some u) : sizeOf u < sizeOf fs := by
  induction fs with
  | nil => simp [objGet] at h
  | cons p rest ih =>
    obtain ⟨k, v⟩ := p
    by_cases hk : k = key
    · simp [objGet, hk] at h
      subst h
      simp
      omega
    · simp [objGet, hk] at h
      have := ih h
      simp
      omega

mutual

/-- Embeds `flattenRecordImpl`: extract `properties` if present, return `{}` on
null, wrap non-records as `{ Value: v }`, otherwise fold `processField`
over the record's fields in order. -/
def flattenRecordImpl (inputRecord : JValue) (parentPath : Option String)
    (existingFields : Option (List String)) : List (String × JValue) :=
  let currentParentPath := parentPath.getD ""
  let currentExistingFields := existingFields.getD []
  match inputRecord with
  | JValue.obj fs =>
    match h : objGet fs "properties" with
    | some (JValue.obj gfs) =>
        (processFields gfs currentParentPath ⟨[], currentExistingFields⟩).record
    | some JValue.null => []
    | some v => [("Value", v)]
    | none => (processFields fs currentParentPath ⟨[], currentExistingFields⟩).record
  | JValue.null => []
  | v => [("Value", v)]
termination_by 3 * sizeOf inputRecord
decreasing_by all_goals first
  | (have hs := objGet_sizeOf h; simp at hs ⊢ <;> omega)
  | (simp <;> omega)

/-- The `for (const fieldName of fieldNames)` accumulation loop of
`flattenRecordImpl`. -/
def processFields (fields : List (String × JValue)) (currentParentPath : String)
    (state : FlattenState) : FlattenState :=
  match fields with
  | [] => state
  | (fieldName, fieldValue) :: rest =>
      processFields rest currentParentPath
        (processField fieldName fieldValue currentParentPath state)
termination_by 3 * sizeOf fields + 2
decreasing_by all_goals (simp <;> omega)

/-- Embeds `processField`: path exclusion, then dispatch on the field value
(name/value record, null, nested record, primitive/array). -/
def processField (fieldName : String) (fieldValue : JValue)
    (currentParentPath : String) (state : FlattenState) : FlattenState :=
  let newPath := if currentParentPath = "" then fieldName
                 else currentParentPath ++ "." ++ fieldName
  if isPathExcluded newPath then state
  else
    match fieldValue with
    | JValue.obj fs =>
      if hasKey fs "name" && hasKey fs "value" then
        processNameValueRecord (JValue.obj fs) currentParentPath state
      else processNestedRecord (JValue.obj fs) newPath state
    | JValue.null => processNullValue fieldName currentParentPath state
    | v => processPrimitiveValue fieldName v currentParentPath state
termination_by 3 * sizeOf fieldValue + 2
decreasing_by all_goals (simp <;> omega)

/-- Embeds `processNestedRecord`: skip empty records, otherwise recursively
flatten the nested record (threading the current name set), spread the
result over the accumulated record and union the name sets. -/
def processNestedRecord (fieldValue : JValue) (newPath : String)
    (state : FlattenState) : FlattenState :=
  if (objKeys fieldValue).length = 0 then state
  else
    let flattened := flattenRecordImpl fieldValue (some newPath) (some state.fieldsSet)
    let flattenedFieldNames := flattened.map Prod.fst
    ⟨spread state.record flattened, setUnion state.fieldsSet flattenedFieldNames⟩
termination_by 3 * sizeOf fieldValue + 1
decreasing_by all_goals (simp <;> omega)

end

/-- Embeds `flattenRecord`, the exported entry point of propertyFlattening.ts;
its JS defaults (`parentPath = null`, `existingFields = null`) are the
`none` arguments. -/
def flattenRecord (inputRecord : JValue) : List (String × JValue) :=
  flattenRecordImpl inputRecord none none

/-! Fuelled evaluation twins of the four flattening functions: they are
structurally recursive on an explicit fuel parameter, hence reduce inside
the kernel, and are proved extensionally equal to the primary definitions
(`flattenE_spec` below); they exist only so that concrete runs can be
established by `rfl`/`decide`. -/

mutual

/-- Fuelled twin of `flattenRecordImpl`. -/
def flattenRecordImplE : Nat → JValue → Option String → Option (List String) →
    List (String × JValue)
  | 0, _, _, _ => []
  | Nat.succ fuel, inputRecord, parentPath, existingFields =>
    let currentParentPath := parentPath.getD ""
    let currentExistingFields := existingFields.getD []
    match inputRecord with
    | JValue.obj fs =>
      match objGet fs "properties" with
      | some (JValue.obj gfs) =>
          (processFieldsE fuel gfs currentParentPath ⟨[], currentExistingFields⟩).record
      | some JValue.null => []
      | some v => [("Value", v)]
      | none => (processFieldsE fuel fs currentParentPath ⟨[], currentExistingFields⟩).record
    | JValue.null => []
    | v => [("Value", v)]

/-- Fuelled twin of `processFields`. -/
def processFieldsE : Nat → List (String × JValue) → String → FlattenState →
    FlattenState
  | 0, _, _, state => state
  | Nat.succ fuel, fields, currentParentPath, state =>
    match fields with
    | [] => state
    | (fieldName, fieldValue) :: rest =>
        processFieldsE fuel rest currentParentPath
          (processFieldE fuel fieldName fieldValue currentParentPath state)

/-- Fuelled twin of `processField`. -/
def processFieldE : Nat → String → JValue → String → FlattenState → FlattenState
  | 0, _, _, _, state => state
  | Nat.succ fuel, fieldName, fieldValue, currentParentPath, state =>
    let newPath := if currentParentPath = "" then fieldName
                   else currentParentPath ++ "." ++ fieldName
    if isPathExcluded newPath then state
    else
      match fieldValue with
      | JValue.obj fs =>
        if hasKey fs "name" && hasKey fs "value" then
          processNameValueRecord (JValue.obj fs) currentParentPath state
        else processNestedRecordE fuel (JValue.obj fs) newPath state
      | JValue.null => processNullValue fieldName currentParentPath state
      | v => processPrimitiveValue fieldName v currentParentPath state

/-- Fuelled twin of `processNestedRecord`. -/
def processNestedRecordE : Nat → JValue → String → FlattenState → FlattenState
  | 0, _, _, state => state
  | Nat.succ fuel, fieldValue, newPath, state =>
    if (objKeys fieldValue).length = 0 then state
    else
      let flattened := flattenRecordImplE fuel fieldValue (some newPath)
        (some state.fieldsSet)
      ⟨spread state.record flattened, setUnion state.fieldsSet (flattened.map Prod.fst)⟩

end

/-! ### Object filtering: `src/nodes/Speckle/utils/objectFiltering.ts` -/

/-- Embeds `obj.speckle_type || ''`: the `speckle_type` string of an object,
defaulting to the empty string when the field is absent or falsy.  (A
truthy non-string `speckle_type`, outside the data model, would make the
TS crash on `.includes`; it is mapped to `""` here.) -/
def speckleTypeOf (o : JValue) : String :=
  match o with
  | JValue.obj fs =>
    match objGet fs "speckle_type" with
    | some (JValue.str s) => s
    | _ => ""
  | _ => ""

/-- Embeds `SpeckleObjectFilter.shouldExcludeObject`. -/
def shouldExcludeObject (o : JValue) : Bool :=
  speckleTypeOf o = "Speckle.Core.Models.DataChunk"
    || jsIncludes (speckleTypeOf o) "Objects.Other.RawEncoding"

/-- Embeds `SpeckleObjectFilter.filterObjects`: if any object is a non-excluded
DataObject, keep exactly the non-excluded DataObjects, otherwise keep all
non-excluded objects. -/
def filterObjects (objects : List JValue) : List JValue :=
  let hasDataObjects := objects.any
    (fun o => jsIncludes (speckleTypeOf o) "DataObject" && !shouldExcludeObject o)
  if hasDataObjects then
    objects.filter
      (fun o => jsIncludes (speckleTypeOf o) "DataObject" && !shouldExcludeObject o)
  else
    objects.filter (fun o => !shouldExcludeObject o)

/-! ### Reference resolution: `SpeckleReferenceResolver` (src/unnamed/part_011) -/

/-- Embeds `value && typeof value === 'object'`: the guard under which the scan
recurses into a nested value. -/
def isObjOrArr : JValue → Bool
  | JValue.obj _ => true
  | JValue.arr _ => true
  | _ => false

mutual

/-- Embeds `extractReferencedIds`: add `obj.referencedId` when it is a truthy
(hence non-empty) string, then recurse into every object- or array-valued
member (`Object.values`). -/
def extractReferencedIds : JValue → List String → List String
  | JValue.obj fs, acc =>
      let acc1 := match objGet fs "referencedId" with
        | some (JValue.str s) => if s = "" then acc else addUnique acc s
        | _ => acc
      extractFromFields fs acc1
  | JValue.arr xs, acc => extractFromValues xs acc
  | _, acc => acc

/-- The `Object.values` loop of `extractReferencedIds` over an object's
fields. -/
def extractFromFields : List (String × JValue) → List String → List String
  | [], acc => acc
  | (_, v) :: rest, acc =>
      extractFromFields rest (if isObjOrArr v then extractReferencedIds v acc else acc)

/-- The `Object.values` loop of `extractReferencedIds` over an array's
elements. -/
def extractFromValues : List JValue → List String → List String
  | [], acc => acc
  | v :: rest, acc =>
      extractFromValues rest (if isObjOrArr v then extractReferencedIds v acc else acc)

end

/-- JS truthiness of a value. -/
def jsTruthy : JValue → Bool
  | JValue.null => false
  | JValue.bool b => b
  | JValue.num n => !(n == 0)
  | JValue.str s => !(s == "")
  | JValue.arr _ => true
  | JValue.obj _ => true

/-- Embeds `new Set(objects.map(obj => obj.id))`, restricted to string ids: only
a string id can compare equal (SameValueZero) to a string `referencedId`,
so non-string and absent ids never affect the missing-id test. -/
def existingIdStrings (objects : List JValue) : List String :=
  objects.filterMap (fun o =>
    match o with
    | JValue.obj fs =>
      match objGet fs "id" with
      | some (JValue.str s) => some s
      | _ => none
    | _ => none)

/-- The per-pass scan: fold `extractReferencedIds` over the working set
into one insertion-ordered, duplicate-free id list (the JS `Set`). -/
def collectReferencedIds (objects : List JValue) : List String :=
  objects.foldl (fun acc o => extractReferencedIds o acc) []

/-- The per-pass `missingIds`: referenced ids not present among the
working set's own ids. -/
def missingIds (objects : List JValue) : List String :=
  (collectReferencedIds objects).filter
    (fun refId => !((existingIdStrings objects).contains refId))

/-- Outcome of `resolveMissingReferences`: the final working set, the
number of executed passes of the while loop, and every id for which a
fetch was issued. -/
structure ResolveResult where
  objects : List JValue
  passes : Nat
  fetchedIds : List String
  deriving Repr

/-- The `while (iterationCount < maxIterations)` loop of
`resolveMissingReferences`.  The capability `fetchById` models
`loader.getObject` against a fixed backing store, `none` standing for the
caught fetch error; per the `if (obj)` guard only truthy results are
appended to the working set. -/
def resolveLoop (fetchById : String → Option JValue) :
    Nat → List JValue → ResolveResult
  | 0, objects => ⟨objects, 0, []⟩
  | Nat.succ remaining, objects =>
    let missing := missingIds objects
    if missing.isEmpty then ⟨objects, 1, []⟩
    else
      let fetched := (missing.map fetchById).filterMap
        (fun r => match r with
          | some v => if jsTruthy v then some v else none
          | none => none)
      let rest := resolveLoop fetchById remaining (objects ++ fetched)
      ⟨rest.objects, rest.passes + 1, missing ++ rest.fetchedIds⟩

/-- Embeds `resolveMissingReferences` with the default configuration
(`maxIterations = 10` from the constructor). -/
def resolveMissingReferences (fetchById : String → Option JValue)
    (objects : List JValue) : ResolveResult :=
  resolveLoop fetchById 10 objects

/-! ### Specification-side predicates for the resolver scan -/

mutual

/-- A key named `referencedId` with string value `s` occurs somewhere in
the value, at any nesting depth inside mappings and arrays. -/
def occursRefIdB (s : String) : JValue → Bool
  | JValue.obj fs =>
      (match objGet fs "referencedId" with
       | some (JValue.str t) => t = s
       | _ => false) || occursFieldsB s fs
  | JValue.arr xs => occursValuesB s xs
  | _ => false

/-- Lifts `occursRefIdB` over an object's field values. -/
def occursFieldsB (s : String) : List (String × JValue) → Bool
  | [] => false
  | (_, v) :: rest => occursRefIdB s v || occursFieldsB s rest

/-- Lifts `occursRefIdB` over an array's elements. -/
def occursValuesB (s : String) : List JValue → Bool
  | [] => false
  | v :: rest => occursRefIdB s v || occursValuesB s rest

end

/-! ### Specification-side predicates for the flattener -/

mutual

/-- Every name/value wrapper occurring anywhere in the value carries a
non-mapping `value` member. -/
def nvValuesOkB : JValue → Bool
  | JValue.obj fs =>
      (!(hasKey fs "name" && hasKey fs "value")
        || !(isRecord ((objGet fs "value").getD JValue.null)))
      && nvFieldsOkB fs
  | JValue.arr xs => nvArrOkB xs
  | _ => true

/-- Lifts `nvValuesOkB` over an object's field values. -/
def nvFieldsOkB : List (String × JValue) → Bool
  | [] => true
  | (_, v) :: rest => nvValuesOkB v && nvFieldsOkB rest

/-- Lifts `nvValuesOkB` over an array's elements. -/
def nvArrOkB : List JValue → Bool
  | [] => true
  | v :: rest => nvValuesOkB v && nvArrOkB rest

end

/-- First candidate (by increasing depth) not yet taken, per the spec's
description of collision suffixing. -/
def firstFreeCandidate (mk : Nat → String) (existingNames : List String) :
    List Nat → Option String
  | [] => none
  | d :: ds =>
    if mk d ∈ existingNames then firstFreeCandidate mk existingNames ds
    else some (mk d)

/-- The collision-resolution algorithm exactly as the specification words
it: keep a free or parentless name; otherwise split the parent path on
`.`, reverse the segments, try depths 1, 2, 3, … and return the first
free candidate, or the deepest candidate when all collide. -/
def resolveFieldNameSpec (candidateName : String) (parentPath : String)
    (existingNames : List String) : String :=
  if candidateName ∉ existingNames then candidateName
  else if parentPath = "" then candidateName
  else
    let segs := (jsSplitDot parentPath).reverse
    let mk := fun depth => candidateName ++ "." ++ joinDot (segs.take depth)
    match firstFreeCandidate mk existingNames
        ((List.range segs.length).map (fun i => i + 1)) with
    | some c => c
    | none => mk segs.length

/-! ### Concrete example inputs used by witnesses and counterexamples -/

/-- A name/value wrapper named `"a"` with value `3`. -/
def nvA3 : JValue :=
  JValue.obj [("name", JValue.str "a"), ("value", JValue.num 3)]

/-- Input exhibiting a merge-time key collision: the root emits `a` and
`a.b`, then the nested record `b` re-emits the exhausted candidate
`a.b`. -/
def mergeCollideEx : JValue :=
  JValue.obj [("a", JValue.num 1), ("a.b", JValue.num 2),
    ("b", JValue.obj [("x", nvA3)])]

/-- A record whose name/value wrapper carries a mapping value. -/
def nvMappingValueEx : JValue :=
  JValue.obj [("f", JValue.obj [("name", JValue.str "n"),
    ("value", JValue.obj [("x", JValue.num 1)])])]

/-- A well-formed record (no mapping-valued name/value wrapper). -/
def nvScalarValueEx : JValue :=
  JValue.obj [("f", JValue.obj [("name", JValue.str "Depth"),
    ("value", JValue.num 600)])]

/-- An already-flat mapping: scalars, null and an array only. -/
def flatMapEx : List (String × JValue) :=
  [("Depth", JValue.num 600), ("tag", JValue.null),
   ("xs", JValue.arr [JValue.num 1, JValue.num 2])]

/-- A flat mapping whose key contains an excluded path substring. -/
def excludedKeyMapEx : List (String × JValue) :=
  [("Composite Structure", JValue.num 1)]

/-- Models a fetch capability that fails on every id. -/
def fetchNone : String → Option JValue := fun _ => none

/-- A concrete fully-resolved working set: one object whose nested
`referencedId` points at its own `id`. -/
def resolvedSetEx : List JValue :=
  [JValue.obj [("id", JValue.str "a"),
               ("c", JValue.obj [("referencedId", JValue.str "a")])]]

/-- A concrete working set with one unresolved reference. -/
def missingSetEx : List JValue :=
  [JValue.obj [("referencedId", JValue.str "x")]]

/-! ### Helper lemmas about the resolver scan -/

theorem mem_addUnique {acc : List String} {t s : String} :
    s ∈ addUnique acc t ↔ s ∈ acc ∨ s = t := by
  unfold addUnique
  by_cases h : acc.contains t
  · rw [if_pos h]
    simp at h
    constructor
    · exact Or.inl
    · rintro (hm | rfl)
      · exact hm
      · exact h
  · rw [if_neg h]
    simp

mutual

theorem mem_extractReferencedIds (v : JValue) (acc : List String) (s : String) :
    s ∈ extractReferencedIds v acc ↔ s ∈ acc ∨ (occursRefIdB s v = true ∧ s ≠ "") := by
  cases v with
  | obj fs =>
    rw [extractReferencedIds]
    rw [mem_extractFromFields fs _ s, occursRefIdB]
    cases h : objGet fs "referencedId" with
    | none => simp [h]
    | some u =>
      cases u <;> simp [h] <;> try tauto
      case str t =>
        by_cases ht : t = ""
        · subst ht
          simp
          constructor
          · rintro (hm | h2)
            · exact Or.inl hm
            · exact Or.inr ⟨Or.inr h2.1, h2.2⟩
          · rintro (hm | ⟨(rfl | h2), hne⟩)
            · exact Or.inl hm
            · exact absurd rfl hne
            · exact Or.inr ⟨h2, hne⟩
        · simp [ht, mem_addUnique]
          constructor
          · rintro ((hm | rfl) | h2)
            · exact Or.inl hm
            · exact Or.inr ⟨Or.inl rfl, ht⟩
            · exact Or.inr ⟨Or.inr h2.1, h2.2⟩
          · rintro (hm | ⟨(rfl | h2), hne⟩)
            · exact Or.inl (Or.inl hm)
            · exact Or.inl (Or.inr rfl)
            · exact Or.inr ⟨h2, hne⟩
  | arr xs =>
    rw [extractReferencedIds, occursRefIdB]
    exact mem_extractFromValues xs acc s
  | null => simp [extractReferencedIds, occursRefIdB]
  | bool b => simp [extractReferencedIds, occursRefIdB]
  | num n => simp [extractReferencedIds, occursRefIdB]
  | str t => simp [extractReferencedIds, occursRefIdB]

theorem mem_extractFromFields (fs : List (String × JValue)) (acc : List String)
    (s : String) :
    s ∈ extractFromFields fs acc ↔ s ∈ acc ∨ (occursFieldsB s fs = true ∧ s ≠ "") := by
  cases fs with
  | nil => simp [extractFromFields, occursFieldsB]
  | cons p rest =>
    obtain ⟨k, v⟩ := p
    rw [extractFromFields, occursFieldsB]
    rw [mem_extractFromFields rest _ s]
    by_cases hv : isObjOrArr v
    · rw [if_pos hv, mem_extractReferencedIds v acc s]
      simp
      tauto
    · rw [if_neg hv]
      have : occursRefIdB s v = false := by
        cases v <;> simp [isObjOrArr] at hv ⊢ <;> simp [occursRefIdB]
      simp [this]

theorem mem_extractFromValues (xs : List JValue) (acc : List String) (s : String) :
    s ∈ extractFromValues xs acc ↔ s ∈ acc ∨ (occursValuesB s xs = true ∧ s ≠ "") := by
  cases xs with
  | nil => simp [extractFromValues, occursValuesB]
  | cons v rest =>
    rw [extractFromValues, occursValuesB]
    rw [mem_extractFromValues rest _ s]
    by_cases hv : isObjOrArr v
    · rw [if_pos hv, mem_extractReferencedIds v acc s]
      simp
      tauto
    · rw [if_neg hv]
      have : occursRefIdB s v = false := by
        cases v <;> simp [isObjOrArr] at hv ⊢ <;> simp [occursRefIdB]
      simp [this]

end

/-- Folding the scan over the working set collects exactly the non-empty
string-valued `referencedId`s occurring in some object of the set. -/
theorem mem_collectReferencedIds (objects : List JValue) (s : String) :
    s ∈ collectReferencedIds objects ↔
      (∃ o ∈ objects, occursRefIdB s o = true) ∧ s ≠ "" := by
  have main : ∀ (objs : List JValue) (acc : List String),
      s ∈ objs.foldl (fun acc o => extractReferencedIds o acc) acc ↔
        s ∈ acc ∨ ((∃ o ∈ objs, occursRefIdB s o = true) ∧ s ≠ "") := by
    intro objs
    induction objs with
    | nil => simp
    | cons o rest ih =>
      intro acc
      simp only [List.foldl_cons]
      rw [ih, mem_extractReferencedIds]
      constructor
      · rintro ((hm | ⟨ho, hne⟩) | ⟨⟨o2, ho2, hocc⟩, hne⟩)
        · exact Or.inl hm
        · exact Or.inr ⟨⟨o, by simp, ho⟩, hne⟩
        · exact Or.inr ⟨⟨o2, by simp [ho2], hocc⟩, hne⟩
      · rintro (hm | ⟨⟨o2, ho2, hocc⟩, hne⟩)
        · exact Or.inl (Or.inl hm)
        · rcases List.mem_cons.mp ho2 with rfl | h2
          · exact Or.inl (Or.inr ⟨hocc, hne⟩)
          · exact Or.inr ⟨⟨o2, h2, hocc⟩, hne⟩
  rw [collectReferencedIds, main]
  simp

/-- Each executed pass consumes one unit of the iteration budget. -/
theorem resolveLoop_passes_le (fetchById : String → Option JValue) :
    ∀ (fuel : Nat) (objects : List JValue),
      (resolveLoop fetchById fuel objects).passes ≤ fuel := by
  intro fuel
  induction fuel with
  | zero =>
    intro objects
    rw [resolveLoop]
  | succ n ih =>
    intro objects
    rw [resolveLoop]
    by_cases h : (missingIds objects).isEmpty
    · simp [h]
    · simp only [h, if_false, Bool.false_eq_true]
      exact Nat.succ_le_succ (ih _)

/-- The loop only ever appends to the working set. -/
theorem resolveLoop_objects_append (fetchById : String → Option JValue) :
    ∀ (fuel : Nat) (objects : List JValue),
      ∃ t, (resolveLoop fetchById fuel objects).objects = objects ++ t := by
  intro fuel
  induction fuel with
  | zero =>
    intro objects
    exact ⟨[], by rw [resolveLoop]; simp⟩
  | succ n ih =>
    intro objects
    rw [resolveLoop]
    by_cases h : (missingIds objects).isEmpty
    · simp [h]
    · simp only [h, if_false, Bool.false_eq_true]
      obtain ⟨t, ht⟩ := ih (objects ++ ((missingIds objects).map fetchById).filterMap
        (fun r => match r with
          | some v => if jsTruthy v then some v else none
          | none => none))
      exact ⟨_, by rw [ht, List.append_assoc]⟩

/-- The per-pass missing set is the collected set minus the present ids. -/
theorem mem_missingIds (objects : List JValue) (s : String) :
    s ∈ missingIds objects ↔
      s ∈ collectReferencedIds objects ∧ s ∉ existingIdStrings objects := by
  simp [missingIds, List.mem_filter]

/-- C5: for every initial object array and fetch capability (cycles and
permanently unfetchable ids included, since `fetchById` is arbitrary),
`resolveMissingReferences` with the default configuration terminates (it
is a total function) and executes at most 10 passes of the scan/fetch
loop. -/
theorem claim_C5_resolver_ten_pass_cap (fetchById : String → Option JValue)
    (objects : List JValue) :
    (resolveMissingReferences fetchById objects).passes ≤ 10 :=
  resolveLoop_passes_le fetchById 10 objects

/-- C6 (amended): the scanned id set contains exactly the values of keys
named `referencedId` holding a NON-EMPTY string (the code's truthiness
guard drops the empty string), at any depth inside any object of the
working set; the ids fetched in a pass are exactly the collected ids not
present among the working set's own ids. -/
theorem claim_C6_scan_characterization (objects : List JValue) (s : String)
    (fetchById : String → Option JValue) :
    (s ∈ collectReferencedIds objects ↔
      (∃ o ∈ objects, occursRefIdB s o = true) ∧ s ≠ "") ∧
    (s ∈ missingIds objects ↔
      s ∈ collectReferencedIds objects ∧ s ∉ existingIdStrings objects) ∧
    (missingIds objects ≠ [] →
      ∃ t, (resolveMissingReferences fetchById objects).fetchedIds
        = missingIds objects ++ t) := by
  refine ⟨mem_collectReferencedIds objects s, mem_missingIds objects s, ?_⟩
  intro hne
  rw [resolveMissingReferences, resolveLoop]
  have h : (missingIds objects).isEmpty = false := by
    simpa [List.isEmpty_iff] using hne
  simp only [h, if_false, Bool.false_eq_true]
  exact ⟨_, rfl⟩

/-- C6 witness: on a set with one dangling reference the first pass
fetches exactly that missing id. -/
theorem claim_C6_scan_characterization_witness :
    ∃ t, (resolveMissingReferences fetchNone missingSetEx).fetchedIds
      = missingIds missingSetEx ++ t :=
  (claim_C6_scan_characterization missingSetEx "x" fetchNone).2.2 (by decide)

/-- C6 counterexample: a key named `referencedId` whose value is the
(string) empty string occurs, yet the scan collects nothing — the claim
as stated requires `""` to be collected. -/
theorem claim_C6_counterexample :
    occursRefIdB "" (JValue.obj [("referencedId", JValue.str "")]) = true ∧
    collectReferencedIds [JValue.obj [("referencedId", JValue.str "")]] = [] := by
  constructor
  · decide
  · decide

/-- C8: when every `referencedId` occurring at any depth already matches
the id of some object in the set, resolution finds zero missing ids,
performs exactly one pass, issues no fetches, and returns the collection
unchanged (same elements, same order). -/
theorem claim_C8_fully_resolved_one_pass (fetchById : String → Option JValue)
    (objects : List JValue)
    (h : ∀ s : String, (∃ o ∈ objects, occursRefIdB s o = true) →
      s ∈ existingIdStrings objects) :
    missingIds objects = [] ∧
    resolveMissingReferences fetchById objects = ⟨objects, 1, []⟩ := by
  have hm : missingIds objects = [] := by
    rw [missingIds, List.filter_eq_nil]
    intro s hs
    rw [mem_collectReferencedIds] at hs
    have := h s hs.1
    simp [this]
  refine ⟨hm, ?_⟩
  rw [resolveMissingReferences, resolveLoop]
  simp [hm]

/-- C8 witness: a self-referencing singleton set is returned unchanged in
one pass with no fetches. -/
theorem claim_C8_fully_resolved_one_pass_witness :
    missingIds resolvedSetEx = [] ∧
    resolveMissingReferences fetchNone resolvedSetEx = ⟨resolvedSetEx, 1, []⟩ :=
  claim_C8_fully_resolved_one_pass fetchNone resolvedSetEx (by
    intro s hs
    obtain ⟨o, ho, hocc⟩ := hs
    simp only [resolvedSetEx, List.mem_singleton] at ho
    subst ho
    simp [occursRefIdB, occursFieldsB, objGet] at hocc
    subst hocc
    decide)

/-- C10: resolution only appends — the input array is a prefix of the
output array, every original element unmodified at its original position
and all fetched objects after them. -/
theorem claim_C10_input_is_prefix_of_output (fetchById : String → Option JValue)
    (objects : List JValue) :
    ∃ t, (resolveMissingReferences fetchById objects).objects = objects ++ t :=
  resolveLoop_objects_append fetchById 10 objects

/-! ### Equivalence of the fuelled twins with the primary definitions -/

/-- Given more fuel than the recursion measure, the fuelled twins agree
with the primary flattening definitions. -/
theorem flattenE_spec : ∀ fuel : Nat,
    (∀ (v : JValue) (p : Option String) (e : Option (List String)),
      3 * sizeOf v < fuel →
      flattenRecordImplE fuel v p e = flattenRecordImpl v p e) ∧
    (∀ (fs : List (String × JValue)) (cpp : String) (st : FlattenState),
      3 * sizeOf fs + 2 < fuel →
      processFieldsE fuel fs cpp st = processFields fs cpp st) ∧
    (∀ (n : String) (v : JValue) (cpp : String) (st : FlattenState),
      3 * sizeOf v + 2 < fuel →
      processFieldE fuel n v cpp st = processField n v cpp st) ∧
    (∀ (v : JValue) (np : String) (st : FlattenState),
      3 * sizeOf v + 1 < fuel →
      processNestedRecordE fuel v np st = processNestedRecord v np st) := by
  intro fuel
  induction fuel with
  | zero =>
    refine ⟨?_, ?_, ?_, ?_⟩ <;> (intros; omega)
  | succ fuel ih =>
    obtain ⟨ih1, ih2, ih3, ih4⟩ := ih
    refine ⟨?_, ?_, ?_, ?_⟩
    · intro v p e h
      rw [flattenRecordImpl.eq_def]
      cases v with
      | obj fs =>
        simp only [flattenRecordImplE]
        cases hp : objGet fs "properties" with
        | none =>
          simp only [hp]
          rw [ih2]
          have h1 : sizeOf (JValue.obj fs) = 1 + sizeOf fs := by simp
          omega
        | some u =>
          have hu := objGet_sizeOf hp
          cases u with
          | obj gfs =>
            simp only [hp]
            rw [ih2]
            have h1 : sizeOf (JValue.obj fs) = 1 + sizeOf fs := by simp
            have h2 : sizeOf (JValue.obj gfs) = 1 + sizeOf gfs := by simp
            omega
          | null => simp only [hp]
          | bool b => simp only [hp]
          | num n => simp only [hp]
          | str s => simp only [hp]
          | arr xs => simp only [hp]
      | null => simp only [flattenRecordImplE]
      | bool b => simp only [flattenRecordImplE]
      | num n => simp only [flattenRecordImplE]
      | str s => simp only [flattenRecordImplE]
      | arr xs => simp only [flattenRecordImplE]
    · intro fs cpp st h
      rw [processFields.eq_def]
      cases fs with
      | nil => simp only [processFieldsE]
      | cons p rest =>
        obtain ⟨fieldName, fieldValue⟩ := p
        simp only [processFieldsE]
        rw [ih3, ih2]
        all_goals (simp at h ⊢; omega)
    · intro n v cpp st h
      rw [processField.eq_def]
      simp only [processFieldE]
      by_cases hex : isPathExcluded (if cpp = "" then n else cpp ++ "." ++ n)
      · simp only [hex, if_true]
      · simp only [hex, if_false, Bool.false_eq_true]
        cases v with
        | obj fs =>
          by_cases hnv : (hasKey fs "name" && hasKey fs "value") = true
          · simp only [hnv, if_true]
          · simp only [hnv, if_false, Bool.false_eq_true]
            rw [ih4]
            simp at h ⊢
            omega
        | null => rfl
        | bool b => rfl
        | num m => rfl
        | str s => rfl
        | arr xs => rfl
    · intro v np st h
      rw [processNestedRecord.eq_def]
      simp only [processNestedRecordE]
      by_cases hz : (objKeys v).length = 0
      · simp only [hz, if_true]
      · simp only [hz, if_false]
        rw [ih1]
        omega

/-- Evaluation form of `flattenRecord` through its fuelled twin. -/
theorem flattenRecord_eval (v : JValue) :
    flattenRecord v = flattenRecordImplE (3 * sizeOf v + 1) v none none := by
  rw [flattenRecord, (flattenE_spec (3 * sizeOf v + 1)).1 v none none (by omega)]

/-- Evaluation form of `flattenRecordImpl` through its fuelled twin. -/
theorem flattenRecordImpl_eval (v : JValue) (p : Option String)
    (e : Option (List String)) :
    flattenRecordImpl v p e = flattenRecordImplE (3 * sizeOf v + 1) v p e := by
  rw [(flattenE_spec (3 * sizeOf v + 1)).1 v p e (by omega)]

/-- Evaluation form of `processFields` through its fuelled twin. -/
theorem processFields_eval (fs : List (String × JValue)) (cpp : String)
    (st : FlattenState) :
    processFields fs cpp st = processFieldsE (3 * sizeOf fs + 3) fs cpp st := by
  rw [(flattenE_spec (3 * sizeOf fs + 3)).2.1 fs cpp st (by omega)]

/-- Evaluation form of `processNestedRecord` through its fuelled twin. -/
theorem processNestedRecord_eval (v : JValue) (np : String) (st : FlattenState) :
    processNestedRecord v np st = processNestedRecordE (3 * sizeOf v + 2) v np st := by
  rw [(flattenE_spec (3 * sizeOf v + 2)).2.2.2 v np st (by omega)]

/-! ### Record-operation lemmas (`setKey`, `spread`) -/

theorem objGet_append (a b : List (String × JValue)) (k : String) :
    objGet (a ++ b) k = (objGet a k).orElse (fun _ => objGet b k) := by
  induction a with
  | nil => simp [objGet]
  | cons p rest ih =>
    obtain ⟨k0, v0⟩ := p
    by_cases hk : k0 = k
    · simp [objGet, hk]
    · simp [objGet, hk, ih]

theorem objGet_map_overwrite {k : String} {v : JValue} :
    ∀ (r : List (String × JValue)), r.any (fun p => p.1 = k) →
      objGet (r.map (fun p => if p.1 = k then (k, v) else p)) k = some v := by
  intro r
  induction r with
  | nil => simp
  | cons p rest ih =>
    obtain ⟨k0, v0⟩ := p
    intro h
    by_cases hk : k0 = k
    · subst hk
      have hf : (if (k0, v0).1 = k0 then (k0, v) else (k0, v0)) = (k0, v) := by simp
      rw [List.map_cons, hf, objGet, if_pos rfl]
    · have hf : (if (k0, v0).1 = k then (k, v) else (k0, v0)) = (k0, v0) := by simp [hk]
      rw [List.map_cons, hf, objGet, if_neg hk]
      apply ih
      simp [hk] at h
      simpa using h

theorem objGet_map_overwrite_ne {k k' : String} {v : JValue} (hne : k' ≠ k) :
    ∀ (r : List (String × JValue)),
      objGet (r.map (fun p => if p.1 = k then (k, v) else p)) k' = objGet r k' := by
  intro r
  induction r with
  | nil => simp
  | cons p rest ih =>
    obtain ⟨k0, v0⟩ := p
    by_cases hk : k0 = k
    · subst hk
      have hf : (if (k0, v0).1 = k0 then (k0, v) else (k0, v0)) = (k0, v) := by simp
      rw [List.map_cons, hf, objGet, if_neg (fun he => hne he.symm), objGet,
        if_neg (fun he => hne he.symm)]
      exact ih
    · have hf : (if (k0, v0).1 = k then (k, v) else (k0, v0)) = (k0, v0) := by simp [hk]
      rw [List.map_cons, hf, objGet, objGet]
      by_cases h0 : k0 = k'
      · simp [h0]
      · simp [h0, ih]

theorem objGet_setKey_self (r : List (String × JValue)) (k : String) (v : JValue) :
    objGet (setKey r k v) k = some v := by
  rw [setKey]
  by_cases h : r.any (fun p => p.1 = k)
  · rw [if_pos h]
    exact objGet_map_overwrite r h
  · rw [if_neg h, objGet_append]
    have : objGet r k = none := by
      induction r with
      | nil => rfl
      | cons p rest ih =>
        obtain ⟨k0, v0⟩ := p
        simp at h
        rw [objGet, if_neg h.1]
        exact ih (by simp; exact h.2)
    simp [this, objGet]

theorem objGet_setKey_ne {k k' : String} (hne : k' ≠ k)
    (r : List (String × JValue)) (v : JValue) :
    objGet (setKey r k v) k' = objGet r k' := by
  rw [setKey]
  by_cases h : r.any (fun p => p.1 = k)
  · rw [if_pos h]
    exact objGet_map_overwrite_ne hne r
  · rw [if_neg h, objGet_append]
    have : objGet [(k, v)] k' = none := by
      rw [objGet, if_neg (fun he => hne he.symm)]
      rfl
    cases hr : objGet r k' <;> simp [this]

theorem setKey_keys_nodup {r : List (String × JValue)} {k : String} {v : JValue}
    (h : (r.map Prod.fst).Nodup) : ((setKey r k v).map Prod.fst).Nodup := by
  rw [setKey]
  by_cases ha : r.any (fun p => p.1 = k)
  · rw [if_pos ha]
    have : (r.map (fun p => if p.1 = k then (k, v) else p)).map Prod.fst
        = r.map Prod.fst := by
      rw [List.map_map]
      apply List.map_congr_left
      intro p hp
      by_cases hk : p.1 = k
      · simp [hk]
      · simp [hk]
    rw [this]
    exact h
  · rw [if_neg ha]
    rw [List.map_append]
    simp only [List.map_cons, List.map_nil]
    rw [List.nodup_append]
    refine ⟨h, List.nodup_singleton k, ?_⟩
    intro x hx
    simp only [List.mem_singleton]
    intro hxk
    subst hxk
    apply ha
    rw [List.any_eq_true]
    obtain ⟨p, hp, hpk⟩ := List.mem_map.mp hx
    exact ⟨p, hp, by simp [hpk]⟩

theorem mem_setKey_values {r : List (String × JValue)} {k k' : String}
    {v v' : JValue} (h : (k', v') ∈ setKey r k v) : (k', v') ∈ r ∨ v' = v := by
  rw [setKey] at h
  by_cases ha : r.any (fun p => p.1 = k)
  · rw [if_pos ha] at h
    obtain ⟨p, hp, hpe⟩ := List.mem_map.mp h
    by_cases hk : p.1 = k
    · rw [if_pos hk] at hpe
      exact Or.inr (by cases hpe; rfl)
    · rw [if_neg hk] at hpe
      exact Or.inl (hpe ▸ hp)
  · rw [if_neg ha] at h
    rcases List.mem_append.mp h with h1 | h2
    · exact Or.inl h1
    · simp at h2
      exact Or.inr h2.2

theorem objGet_spread_of_not_mem {k : String} :
    ∀ (b a : List (String × JValue)), k ∉ b.map Prod.fst →
      objGet (spread a b) k = objGet a k := by
  intro b
  induction b with
  | nil => intro a _; rfl
  | cons p rest ih =>
    obtain ⟨k0, v0⟩ := p
    intro a hk
    simp only [List.map_cons, List.mem_cons] at hk
    push_neg at hk
    rw [spread, List.foldl_cons]
    have := ih (setKey a k0 v0) (by simpa using hk.2)
    rw [spread] at this
    rw [this]
    exact objGet_setKey_ne hk.1 a v0

theorem objGet_spread_right {k : String} {v : JValue} :
    ∀ (b a : List (String × JValue)), (b.map Prod.fst).Nodup →
      objGet b k = some v → objGet (spread a b) k = some v := by
  intro b
  induction b with
  | nil => intro a _ h; simp [objGet] at h
  | cons p rest ih =>
    obtain ⟨k0, v0⟩ := p
    intro a hnd h
    simp only [List.map_cons, List.nodup_cons] at hnd
    rw [spread, List.foldl_cons]
    by_cases hk : k0 = k
    · subst hk
      rw [objGet, if_pos rfl] at h
      injection h with hv
      subst hv
      have hnot : k0 ∉ rest.map Prod.fst := hnd.1
      have := objGet_spread_of_not_mem rest (setKey a k0 v0) hnot
      rw [spread] at this
      rw [this]
      exact objGet_setKey_self a k0 v0
    · rw [objGet, if_neg hk] at h
      have := ih (setKey a k0 v0) hnd.2 h
      rw [spread] at this
      exact this

theorem spread_keys_nodup :
    ∀ (b a : List (String × JValue)), (a.map Prod.fst).Nodup →
      ((spread a b).map Prod.fst).Nodup := by
  intro b
  induction b with
  | nil => intro a h; exact h
  | cons p rest ih =>
    obtain ⟨k0, v0⟩ := p
    intro a h
    rw [spread, List.foldl_cons]
    have := ih (setKey a k0 v0) (setKey_keys_nodup h)
    rw [spread] at this
    exact this

theorem mem_spread_values {k' : String} {v' : JValue} :
    ∀ (b a : List (String × JValue)), (k', v') ∈ spread a b →
      (k', v') ∈ a ∨ ∃ k'', (k'', v') ∈ b := by
  intro b
  induction b with
  | nil => intro a h; exact Or.inl h
  | cons p rest ih =>
    obtain ⟨k0, v0⟩ := p
    intro a h
    rw [spread, List.foldl_cons] at h
    have := ih (setKey a k0 v0) (by rw [spread]; exact h)
    rcases this with h1 | ⟨k'', h2⟩
    · rcases mem_setKey_values h1 with h3 | h3
      · exact Or.inl h3
      · exact Or.inr ⟨k0, by simp [h3]⟩
    · exact Or.inr ⟨k'', by simp [h2]⟩

/-! ### Flat-value invariant of the flattened record -/

theorem objGet_mem {fs : List (String × JValue)} {k : String} {u : JValue}
    (h : objGet fs k = some u) : (k, u) ∈ fs := by
  induction fs with
  | nil => simp [objGet] at h
  | cons p rest ih =>
    obtain ⟨k0, v0⟩ := p
    rw [objGet] at h
    by_cases hk : k0 = k
    · rw [if_pos hk] at h
      injection h with hv
      subst hk
      subst hv
      simp
    · rw [if_neg hk] at h
      exact List.mem_cons_of_mem _ (ih h)

theorem nvFieldsOkB_mem :
    ∀ {fs : List (String × JValue)} {k : String} {u : JValue},
      nvFieldsOkB fs = true → (k, u) ∈ fs → nvValuesOkB u = true := by
  intro fs
  induction fs with
  | nil =>
    intro k u _ hm
    simp at hm
  | cons p rest ih =>
    obtain ⟨k0, v0⟩ := p
    intro k u hok hm
    rw [nvFieldsOkB, Bool.and_eq_true] at hok
    rcases List.mem_cons.mp hm with he | hm2
    · cases he
      exact hok.1
    · exact ih hok.2 hm2

theorem flat_processNullValue {n : String} {cpp : String} {st : FlattenState}
    (hst : ∀ kv ∈ st.record, isRecord kv.2 = false) :
    ∀ kv ∈ (processNullValue n cpp st).record, isRecord kv.2 = false := by
  intro kv hkv
  obtain ⟨k', v'⟩ := kv
  rw [processNullValue] at hkv
  rcases mem_setKey_values hkv with h1 | h2
  · exact hst _ h1
  · rw [h2]
    rfl

theorem flat_processPrimitiveValue {n : String} {v : JValue} {cpp : String}
    {st : FlattenState} (hv : isRecord v = false)
    (hst : ∀ kv ∈ st.record, isRecord kv.2 = false) :
    ∀ kv ∈ (processPrimitiveValue n v cpp st).record, isRecord kv.2 = false := by
  intro kv hkv
  obtain ⟨k', v'⟩ := kv
  rw [processPrimitiveValue] at hkv
  rcases mem_setKey_values hkv with h1 | h2
  · exact hst _ h1
  · rw [h2]
    exact hv

theorem flat_processNameValueRecord {fs : List (String × JValue)} {cpp : String}
    {st : FlattenState}
    (hval : isRecord ((objGet fs "value").getD JValue.null) = false)
    (hst : ∀ kv ∈ st.record, isRecord kv.2 = false) :
    ∀ kv ∈ (processNameValueRecord (JValue.obj fs) cpp st).record,
      isRecord kv.2 = false := by
  intro kv hkv
  obtain ⟨k', v'⟩ := kv
  rw [processNameValueRecord] at hkv
  split at hkv
  · exact hst _ hkv
  · rcases mem_setKey_values hkv with h1 | h2
    · exact hst _ h1
    · rw [h2]
      exact hval

theorem flatE_invariant : ∀ fuel : Nat,
    (∀ (v : JValue) (p : Option String) (e : Option (List String)),
      nvValuesOkB v = true →
      ∀ kv ∈ flattenRecordImplE fuel v p e, isRecord kv.2 = false) ∧
    (∀ (fs : List (String × JValue)) (cpp : String) (st : FlattenState),
      nvFieldsOkB fs = true →
      (∀ kv ∈ st.record, isRecord kv.2 = false) →
      ∀ kv ∈ (processFieldsE fuel fs cpp st).record, isRecord kv.2 = false) ∧
    (∀ (n : String) (v : JValue) (cpp : String) (st : FlattenState),
      nvValuesOkB v = true →
      (∀ kv ∈ st.record, isRecord kv.2 = false) →
      ∀ kv ∈ (processFieldE fuel n v cpp st).record, isRecord kv.2 = false) ∧
    (∀ (v : JValue) (np : String) (st : FlattenState),
      nvValuesOkB v = true →
      (∀ kv ∈ st.record, isRecord kv.2 = false) →
      ∀ kv ∈ (processNestedRecordE fuel v np st).record, isRecord kv.2 = false) := by
  intro fuel
  induction fuel with
  | zero =>
    refine ⟨?_, ?_, ?_, ?_⟩
    · intro v p e _ kv hkv
      simp [flattenRecordImplE] at hkv
    · intro fs cpp st _ hst kv hkv
      exact hst kv hkv
    · intro n v cpp st _ hst kv hkv
      exact hst kv hkv
    · intro v np st _ hst kv hkv
      exact hst kv hkv
  | succ fuel ih =>
    obtain ⟨ih1, ih2, ih3, ih4⟩ := ih
    refine ⟨?_, ?_, ?_, ?_⟩
    · intro v p e hv kv hkv
      cases v with
      | obj fs =>
        rw [nvValuesOkB, Bool.and_eq_true] at hv
        simp only [flattenRecordImplE] at hkv
        cases hp : objGet fs "properties" with
        | none =>
          simp only [hp] at hkv
          exact ih2 fs _ _ hv.2 (by simp) kv hkv
        | some u =>
          have huok : nvValuesOkB u = true := nvFieldsOkB_mem hv.2 (objGet_mem hp)
          cases u with
          | obj gfs =>
            simp only [hp] at hkv
            rw [nvValuesOkB, Bool.and_eq_true] at huok
            exact ih2 gfs _ _ huok.2 (by simp) kv hkv
          | null => simp [hp] at hkv
          | bool b =>
            simp only [hp] at hkv
            simp only [List.mem_singleton] at hkv
            subst hkv
            rfl
          | num m =>
            simp only [hp] at hkv
            simp only [List.mem_singleton] at hkv
            subst hkv
            rfl
          | str s =>
            simp only [hp] at hkv
            simp only [List.mem_singleton] at hkv
            subst hkv
            rfl
          | arr xs =>
            simp only [hp] at hkv
            simp only [List.mem_singleton] at hkv
            subst hkv
            rfl
      | null => simp [flattenRecordImplE] at hkv
      | bool b =>
        simp only [flattenRecordImplE, List.mem_singleton] at hkv
        subst hkv
        rfl
      | num m =>
        simp only [flattenRecordImplE, List.mem_singleton] at hkv
        subst hkv
        rfl
      | str s =>
        simp only [flattenRecordImplE, List.mem_singleton] at hkv
        subst hkv
        rfl
      | arr xs =>
        simp only [flattenRecordImplE, List.mem_singleton] at hkv
        subst hkv
        rfl
    · intro fs cpp st hf hst kv hkv
      cases fs with
      | nil =>
        simp only [processFieldsE] at hkv
        exact hst kv hkv
      | cons p rest =>
        obtain ⟨n, v⟩ := p
        rw [nvFieldsOkB, Bool.and_eq_true] at hf
        simp only [processFieldsE] at hkv
        exact ih2 rest cpp _ hf.2 (ih3 n v cpp st hf.1 hst) kv hkv
    · intro n v cpp st hv hst kv hkv
      simp only [processFieldE] at hkv
      by_cases hex : isPathExcluded (if cpp = "" then n else cpp ++ "." ++ n)
      · simp only [hex, if_true] at hkv
        exact hst kv hkv
      · simp only [hex, if_false, Bool.false_eq_true] at hkv
        cases v with
        | obj fs =>
          by_cases hnv : (hasKey fs "name" && hasKey fs "value") = true
          · simp only [hnv, if_true] at hkv
            rw [nvValuesOkB, Bool.and_eq_true] at hv
            have hval : isRecord ((objGet fs "value").getD JValue.null) = false := by
              have h1 := hv.1
              rw [hnv] at h1
              simpa using h1
            exact flat_processNameValueRecord hval hst kv hkv
          · simp only [hnv, if_false, Bool.false_eq_true] at hkv
            exact ih4 (JValue.obj fs) _ st hv hst kv hkv
        | null => exact flat_processNullValue hst kv hkv
        | bool b => exact flat_processPrimitiveValue (by rfl) hst kv hkv
        | num m => exact flat_processPrimitiveValue (by rfl) hst kv hkv
        | str s => exact flat_processPrimitiveValue (by rfl) hst kv hkv
        | arr xs => exact flat_processPrimitiveValue (by rfl) hst kv hkv
    · intro v np st hv hst kv hkv
      simp only [processNestedRecordE] at hkv
      by_cases hz : (objKeys v).length = 0
      · rw [if_pos hz] at hkv
        exact hst kv hkv
      · rw [if_neg hz] at hkv
        obtain ⟨k', v'⟩ := kv
        rcases mem_spread_values _ st.record hkv with h1 | ⟨k'', h2⟩
        · exact hst _ h1
        · exact ih1 v (some np) (some st.fieldsSet) hv (k'', v') h2

/-- When every name/value wrapper carries a non-mapping value, every
value of the flattened record is a scalar, null or an array — never a
mapping. -/
theorem flat_flattenRecordImpl (v : JValue) (p : Option String)
    (e : Option (List String)) (hv : nvValuesOkB v = true) :
    ∀ kv ∈ flattenRecordImpl v p e, isRecord kv.2 = false := by
  intro kv hkv
  rw [flattenRecordImpl_eval] at hkv
  exact (flatE_invariant (3 * sizeOf v + 1)).1 v p e hv kv hkv

/-! ### Unfolding lemmas for the primary flattening functions -/

theorem processFields_nil (cpp : String) (st : FlattenState) :
    processFields [] cpp st = st := by
  rw [processFields.eq_def]

theorem processFields_cons (n : String) (v : JValue)
    (rest : List (String × JValue)) (cpp : String) (st : FlattenState) :
    processFields ((n, v) :: rest) cpp st
      = processFields rest cpp (processField n v cpp st) := by
  rw [processFields.eq_def]

theorem flattenRecordImpl_props_none {fs : List (String × JValue)}
    (h : objGet fs "properties" = none) (p : Option String)
    (e : Option (List String)) :
    flattenRecordImpl (JValue.obj fs) p e
      = (processFields fs (p.getD "") ⟨[], e.getD []⟩).record := by
  rw [flattenRecordImpl_eval]
  simp only [flattenRecordImplE, h]
  rw [(flattenE_spec (3 * sizeOf (JValue.obj fs))).2.1 fs _ _ (by simp <;> omega)]

theorem flattenRecordImpl_props_obj {fs gfs : List (String × JValue)}
    (h : objGet fs "properties" = some (JValue.obj gfs)) (p : Option String)
    (e : Option (List String)) :
    flattenRecordImpl (JValue.obj fs) p e
      = (processFields gfs (p.getD "") ⟨[], e.getD []⟩).record := by
  rw [flattenRecordImpl_eval]
  simp only [flattenRecordImplE, h]
  rw [(flattenE_spec (3 * sizeOf (JValue.obj fs))).2.1 gfs _ _ ?_]
  have := objGet_sizeOf h
  simp at this ⊢
  omega

/-! ### Round-trip of already-flat mappings -/

theorem resolveFieldName_empty_path (n : String) (ex : List String) :
    resolveFieldName n (some "") ex = n := by
  rw [resolveFieldName]
  by_cases h : ex.contains n
  · simp [h]
  · simp [h]

theorem processField_flat_base {k : String} {v : JValue}
    {acc : List (String × JValue)} {ex : List String}
    (hflat : isRecord v = false) (hex : isPathExcluded k = false)
    (hnotin : ∀ kv2 ∈ acc, k ≠ kv2.1) :
    processField k v "" ⟨acc, ex⟩ = ⟨acc ++ [(k, v)], addUnique ex k⟩ := by
  have hany : acc.any (fun p => p.1 = k) = false := by
    rw [Bool.eq_false_iff]
    intro hc
    rw [List.any_eq_true] at hc
    obtain ⟨p, hp, hpk⟩ := hc
    have hpe : p.1 = k := by simpa using hpk
    exact hnotin p hp hpe.symm
  have hrn : resolveFieldName k (some "") ex = k := resolveFieldName_empty_path k ex
  rw [processField.eq_def]
  cases v with
  | obj fs => simp [isRecord] at hflat
  | null => simp [hex, processNullValue, hrn, setKey, hany]
  | bool b => simp [hex, processPrimitiveValue, hrn, setKey, hany]
  | num m => simp [hex, processPrimitiveValue, hrn, setKey, hany]
  | str s => simp [hex, processPrimitiveValue, hrn, setKey, hany]
  | arr xs => simp [hex, processPrimitiveValue, hrn, setKey, hany]

theorem processFields_roundtrip :
    ∀ (m acc : List (String × JValue)) (ex : List String),
      (∀ kv ∈ m, isRecord kv.2 = false) →
      (∀ kv ∈ m, isPathExcluded kv.1 = false) →
      (∀ kv ∈ m, ∀ kv2 ∈ acc, kv.1 ≠ kv2.1) →
      (m.map Prod.fst).Nodup →
      (processFields m "" ⟨acc, ex⟩).record = acc ++ m := by
  intro m
  induction m with
  | nil =>
    intro acc ex _ _ _ _
    rw [processFields_nil]
    simp
  | cons p rest ih =>
    obtain ⟨k, v⟩ := p
    intro acc ex hflat hex hdisj hnd
    rw [processFields_cons]
    rw [processField_flat_base (hflat (k, v) (by simp)) (hex (k, v) (by simp))
      (fun kv2 h2 => hdisj (k, v) (by simp) kv2 h2)]
    rw [List.map_cons, List.nodup_cons] at hnd
    rw [ih (acc ++ [(k, v)]) (addUnique ex k)
      (fun kv h => hflat kv (List.mem_cons_of_mem _ h))
      (fun kv h => hex kv (List.mem_cons_of_mem _ h))
      ?_ hnd.2]
    · simp
    · intro kv hkv kv2 hkv2
      rcases List.mem_append.mp hkv2 with h2 | h2
      · exact hdisj kv (List.mem_cons_of_mem _ hkv) kv2 h2
      · simp only [List.mem_singleton] at h2
        subst h2
        intro he
        exact hnd.1 (he ▸ List.mem_map_of_mem Prod.fst hkv)

/-! ### Key uniqueness of the flattened record -/

theorem processNameValueRecord_keys_nodup {fv : JValue} {cpp : String}
    {st : FlattenState} (h : (st.record.map Prod.fst).Nodup) :
    (((processNameValueRecord fv cpp st).record).map Prod.fst).Nodup := by
  cases fv with
  | obj fs =>
    rw [processNameValueRecord]
    split
    · exact h
    · exact setKey_keys_nodup h
  | null => exact h
  | bool b => exact h
  | num n => exact h
  | str s => exact h
  | arr xs => exact h

theorem processNullValue_keys_nodup {n : String} {cpp : String}
    {st : FlattenState} (h : (st.record.map Prod.fst).Nodup) :
    (((processNullValue n cpp st).record).map Prod.fst).Nodup := by
  rw [processNullValue]
  exact setKey_keys_nodup h

theorem processPrimitiveValue_keys_nodup {n : String} {v : JValue} {cpp : String}
    {st : FlattenState} (h : (st.record.map Prod.fst).Nodup) :
    (((processPrimitiveValue n v cpp st).record).map Prod.fst).Nodup := by
  rw [processPrimitiveValue]
  exact setKey_keys_nodup h

theorem processNestedRecord_keys_nodup {v : JValue} {np : String}
    {st : FlattenState} (h : (st.record.map Prod.fst).Nodup) :
    (((processNestedRecord v np st).record).map Prod.fst).Nodup := by
  rw [processNestedRecord.eq_def]
  by_cases hz : (objKeys v).length = 0
  · rw [if_pos hz]
    exact h
  · rw [if_neg hz]
    exact spread_keys_nodup _ st.record h

theorem processField_keys_nodup {n : String} {v : JValue} {cpp : String}
    {st : FlattenState} (h : (st.record.map Prod.fst).Nodup) :
    (((processField n v cpp st).record).map Prod.fst).Nodup := by
  rw [processField.eq_def]
  by_cases hex : isPathExcluded (if cpp = "" then n else cpp ++ "." ++ n)
  · simp only [hex, if_true]
    exact h
  · simp only [hex, if_false, Bool.false_eq_true]
    cases v with
    | obj fs =>
      by_cases hnv : (hasKey fs "name" && hasKey fs "value") = true
      · simp only [hnv, if_true]
        exact processNameValueRecord_keys_nodup h
      · simp only [hnv, if_false, Bool.false_eq_true]
        exact processNestedRecord_keys_nodup h
    | null => exact processNullValue_keys_nodup h
    | bool b => exact processPrimitiveValue_keys_nodup h
    | num m => exact processPrimitiveValue_keys_nodup h
    | str s => exact processPrimitiveValue_keys_nodup h
    | arr xs => exact processPrimitiveValue_keys_nodup h

theorem processFields_keys_nodup :
    ∀ (fs : List (String × JValue)) (cpp : String) (st : FlattenState),
      (st.record.map Prod.fst).Nodup →
      (((processFields fs cpp st).record).map Prod.fst).Nodup := by
  intro fs
  induction fs with
  | nil =>
    intro cpp st h
    rw [processFields.eq_def]
    exact h
  | cons p rest ih =>
    obtain ⟨n, v⟩ := p
    intro cpp st h
    rw [processFields.eq_def]
    exact ih cpp _ (processField_keys_nodup h)

/-- The flattened record never binds a key twice. -/
theorem flattenRecordImpl_keys_nodup (v : JValue) (p : Option String)
    (e : Option (List String)) :
    ((flattenRecordImpl v p e).map Prod.fst).Nodup := by
  rw [flattenRecordImpl.eq_def]
  split
  · split
    · exact processFields_keys_nodup _ _ _ (by simp)
    · simp
    · simp
    · exact processFields_keys_nodup _ _ _ (by simp)
  · simp
  · simp

/-! ### Claims about the flattener -/

/-- C1 (amended): when the recursively-flattened subtree is merged into
the accumulator and a key is present in both, the SUBTREE's value wins —
the spread `{...acc, ...flattened}` lets the deeper recursive result
overwrite the accumulator's value, the opposite of the claimed
precedence. -/
theorem claim_C1_merge_collision_subtree_wins
    (fs : List (String × JValue)) (np : String) (st : FlattenState)
    (k : String) (v : JValue)
    (h : objGet (flattenRecordImpl (JValue.obj fs) (some np) (some st.fieldsSet)) k
      = some v) :
    objGet (processNestedRecord (JValue.obj fs) np st).record k = some v := by
  rw [processNestedRecord.eq_def]
  by_cases hz : (objKeys (JValue.obj fs)).length = 0
  · have hfs : fs = [] := by
      cases fs with
      | nil => rfl
      | cons p r => simp [objKeys] at hz
    subst hfs
    rw [show flattenRecordImpl (JValue.obj []) (some np) (some st.fieldsSet) = []
      from by rw [flattenRecordImpl_eval]; rfl] at h
    simp [objGet] at h
  · rw [if_neg hz]
    exact objGet_spread_right _ st.record (flattenRecordImpl_keys_nodup _ _ _) h

/-- C1 witness: at the concrete merge-time collision on key `a.b` the
merged record holds the subtree's value `3`. -/
theorem claim_C1_merge_collision_subtree_wins_witness :
    objGet (processNestedRecord (JValue.obj [("x", nvA3)]) "b"
      ⟨[("a", JValue.num 1), ("a.b", JValue.num 2)], ["a", "a.b"]⟩).record "a.b"
      = some (JValue.num 3) :=
  claim_C1_merge_collision_subtree_wins [("x", nvA3)] "b"
    ⟨[("a", JValue.num 1), ("a.b", JValue.num 2)], ["a", "a.b"]⟩ "a.b" (JValue.num 3)
    (by rw [flattenRecordImpl_eval]; rfl)

/-- C1 counterexample: processing the first two fields of
`mergeCollideEx` leaves the accumulator binding `a.b ↦ 2`; the nested
field `b` re-emits `a.b ↦ 3` (collision suffixing exhausted); the merge
keeps the deeper value `3`, so the final record does NOT map `a.b` to the
earlier value `2` as the claim states. -/
theorem claim_C1_counterexample :
    processFields [("a", JValue.num 1), ("a.b", JValue.num 2)] "" ⟨[], []⟩
      = ⟨[("a", JValue.num 1), ("a.b", JValue.num 2)], ["a", "a.b"]⟩ ∧
    flattenRecordImpl (JValue.obj [("x", nvA3)]) (some "b") (some ["a", "a.b"])
      = [("a.b", JValue.num 3)] ∧
    flattenRecord mergeCollideEx = [("a", JValue.num 1), ("a.b", JValue.num 3)] ∧
    JValue.num 3 ≠ JValue.num 2 := by
  refine ⟨?_, ?_, ?_, ?_⟩
  · rw [processFields_eval]
    rfl
  · rw [flattenRecordImpl_eval]
    rfl
  · rw [flattenRecord_eval]
    rfl
  · simp

/-- C2 (amended): provided no name/value wrapper in the input carries a
mapping `value` member, every value of the flattened record is a scalar,
null or an array — never a (non-array) mapping.  (Unrestricted, the
claim fails: a name/value `value` that is a mapping is emitted
verbatim.) -/
theorem claim_C2_output_values_flat (v : JValue) (hv : nvValuesOkB v = true) :
    ∀ kv ∈ flattenRecord v, isRecord kv.2 = false :=
  flat_flattenRecordImpl v none none hv

/-- C2 witness: a concrete well-formed record flattens to flat values. -/
theorem claim_C2_output_values_flat_witness :
    nvValuesOkB nvScalarValueEx = true ∧
    (∀ kv ∈ flattenRecord nvScalarValueEx, isRecord kv.2 = false) :=
  ⟨by decide, claim_C2_output_values_flat nvScalarValueEx (by decide)⟩

/-- C2 counterexample: a name/value wrapper whose `value` is a mapping
puts that mapping into the flattened output, so the output is not
mapping-free. -/
theorem claim_C2_counterexample :
    flattenRecord nvMappingValueEx = [("n", JValue.obj [("x", JValue.num 1)])] ∧
    isRecord (JValue.obj [("x", JValue.num 1)]) = true := by
  constructor
  · rw [flattenRecord_eval]
    rfl
  · rfl

/-- C7 (amended): an already-flat mapping (values all scalars, null or
arrays) whose keys contain no excluded-path substring and do not include
`properties` round-trips unchanged through the flattener, both directly
and wrapped as an object's `properties` field.  (Unrestricted, the claim
fails on excluded-substring keys and on a `properties` key.) -/
theorem claim_C7_flat_roundtrip (m : List (String × JValue))
    (hnd : (m.map Prod.fst).Nodup)
    (hflat : ∀ kv ∈ m, isRecord kv.2 = false)
    (hex : ∀ kv ∈ m, isPathExcluded kv.1 = false)
    (hp : hasKey m "properties" = false) :
    flattenRecord (JValue.obj m) = m ∧
    flattenRecord (JValue.obj [("properties", JValue.obj m)]) = m := by
  have hround : (processFields m "" ⟨[], []⟩).record = m := by
    have := processFields_roundtrip m [] [] hflat hex
      (by intro kv _ kv2 h2; simp at h2) hnd
    simpa using this
  constructor
  · rw [flattenRecord]
    have hnone : objGet m "properties" = none := by
      cases ho : objGet m "properties" with
      | none => rfl
      | some u =>
        rw [hasKey, ho] at hp
        simp at hp
    rw [flattenRecordImpl_props_none hnone]
    exact hround
  · rw [flattenRecord]
    have hsome : objGet [("properties", JValue.obj m)] "properties"
        = some (JValue.obj m) := by
      simp [objGet]
    rw [flattenRecordImpl_props_obj hsome]
    exact hround

/-- C7 witness: a concrete flat mapping with a scalar, a null and an
array round-trips unchanged in both forms. -/
theorem claim_C7_flat_roundtrip_witness :
    flattenRecord (JValue.obj flatMapEx) = flatMapEx ∧
    flattenRecord (JValue.obj [("properties", JValue.obj flatMapEx)]) = flatMapEx :=
  claim_C7_flat_roundtrip flatMapEx (by decide) (by decide) (by decide) (by decide)

/-- C7 counterexample: the flat mapping `{"Composite Structure": 1}` is
NOT returned unchanged — its only key contains an excluded path
substring, so the flattener drops it entirely (in both invocation
forms). -/
theorem claim_C7_counterexample :
    flattenRecord (JValue.obj excludedKeyMapEx) = [] ∧
    flattenRecord (JValue.obj [("properties", JValue.obj excludedKeyMapEx)]) = [] ∧
    excludedKeyMapEx ≠ [] := by
  refine ⟨?_, ?_, ?_⟩
  · rw [flattenRecord_eval]
    rfl
  · rw [flattenRecord_eval]
    rfl
  · simp [excludedKeyMapEx]

/-- C9: flattening never fails on malformed input — a non-mapping,
non-null value is wrapped as `{ Value: v }` and null yields the empty
record. -/
theorem claim_C9_malformed_input (v : JValue) (hrec : isRecord v = false)
    (hnull : v ≠ JValue.null) :
    flattenRecord v = [("Value", v)] ∧ flattenRecord JValue.null = [] := by
  constructor
  · rw [flattenRecord, flattenRecordImpl.eq_def]
    cases v with
    | obj fs => simp [isRecord] at hrec
    | null => exact absurd rfl hnull
    | bool b => rfl
    | num n => rfl
    | str s => rfl
    | arr xs => rfl
  · rw [flattenRecord, flattenRecordImpl.eq_def]

/-- C9 witness: a bare array is wrapped as `{ Value: <array> }` and null
yields `{}`. -/
theorem claim_C9_malformed_input_witness :
    isRecord (JValue.arr [JValue.num 1]) = false ∧
    flattenRecord (JValue.arr [JValue.num 1])
      = [("Value", JValue.arr [JValue.num 1])] ∧
    flattenRecord JValue.null = [] :=
  ⟨rfl, claim_C9_malformed_input (JValue.arr [JValue.num 1]) rfl (by simp)⟩

/-- C3: `filterObjects` keeps, in input order, exactly the non-excluded
DataObjects when at least one exists, and exactly the non-excluded
objects otherwise; exclusion is `speckle_type` (defaulting to the empty
string) equal to `Speckle.Core.Models.DataChunk` or containing
`Objects.Other.RawEncoding`.  Includes the spec's concrete example. -/
theorem claim_C3_filter_characterization (objects : List JValue) :
    (filterObjects objects =
      if ∃ o ∈ objects,
        (jsIncludes (speckleTypeOf o) "DataObject" && !shouldExcludeObject o) = true
      then objects.filter
        (fun o => jsIncludes (speckleTypeOf o) "DataObject" && !shouldExcludeObject o)
      else objects.filter (fun o => !shouldExcludeObject o)) ∧
    filterObjects [JValue.obj [("speckle_type", JValue.str "Foo.DataObject")],
                   JValue.obj [("speckle_type", JValue.str "Bar.Wall")]]
      = [JValue.obj [("speckle_type", JValue.str "Foo.DataObject")]] := by
  constructor
  · rw [filterObjects]
    by_cases h : ∃ o ∈ objects,
        (jsIncludes (speckleTypeOf o) "DataObject" && !shouldExcludeObject o) = true
    · rw [if_pos h]
      have ha : objects.any
          (fun o => jsIncludes (speckleTypeOf o) "DataObject" && !shouldExcludeObject o)
          = true := by
        rw [List.any_eq_true]
        exact h
      simp only [ha, if_true]
    · rw [if_neg h]
      have ha : objects.any
          (fun o => jsIncludes (speckleTypeOf o) "DataObject" && !shouldExcludeObject o)
          = false := by
        rw [Bool.eq_false_iff]
        intro hc
        rw [List.any_eq_true] at hc
        exact h hc
      simp only [ha, Bool.false_eq_true, if_false]
  · rfl

/-! ### C4: the collision-resolution algorithm matches its description -/

theorem splitCharsOn_ne_nil (c : Char) : ∀ l : List Char, splitCharsOn c l ≠ [] := by
  intro l
  induction l with
  | nil => simp [splitCharsOn]
  | cons d rest ih =>
    rw [splitCharsOn]
    cases hs : splitCharsOn c rest with
    | nil => simp
    | cons grp grps =>
      by_cases hd : d = c
      · simp [hd]
      · simp [hd]

theorem jsSplitDot_ne_nil (s : String) : jsSplitDot s ≠ [] := by
  rw [jsSplitDot]
  intro h
  exact splitCharsOn_ne_nil '.' s.data (List.map_eq_nil.mp h)

theorem find?_map_firstFree (mk : Nat → String) (ex : List String) :
    ∀ ds : List Nat,
      (ds.map mk).find? (fun c => !(ex.contains c)) = firstFreeCandidate mk ex ds := by
  intro ds
  induction ds with
  | nil => rfl
  | cons d rest ih =>
    by_cases h : mk d ∈ ex
    · rw [List.map_cons, List.find?_cons_of_neg (List.map mk rest)
        (show ¬((fun c => !(ex.contains c)) (mk d) = true) from by simpa using h)]
      rw [firstFreeCandidate, if_pos h]
      exact ih
    · rw [List.map_cons, List.find?_cons_of_pos (List.map mk rest)
        (show ((fun c => !(ex.contains c)) (mk d)) = true from by simpa using h)]
      rw [firstFreeCandidate, if_neg h]

theorem getLastD_depth_candidates (mk : Nat → String) (dflt : String) :
    ∀ n : Nat, 1 ≤ n →
      ((((List.range n).map (fun i => i + 1)).map mk).getLastD dflt) = mk n := by
  intro n hn
  cases n with
  | zero => omega
  | succ m =>
    rw [List.range_succ, List.map_append, List.map_append]
    simp

/-- C4: `resolveFieldName` behaves exactly as the specification words it
(unchanged name when free or when the parent path is empty; otherwise the
first free reversed-segment suffix candidate, deepest on exhaustion),
including on the spec's `volume` / `Parameters.Structural` example. -/
theorem claim_C4_resolveFieldName_matches_spec (f : String) (p : Option String)
    (ex : List String) :
    resolveFieldName f p ex = resolveFieldNameSpec f (p.getD "") ex ∧
    resolveFieldName "volume" (some "Parameters.Structural") ["volume"]
      = "volume.Structural" ∧
    resolveFieldName "volume" (some "Parameters.Structural")
      ["volume", "volume.Structural"] = "volume.Structural.Parameters" := by
  refine ⟨?_, by decide, by decide⟩
  rw [resolveFieldName, resolveFieldNameSpec]
  by_cases h1 : f ∈ ex
  · have hc : ex.contains f = true := by simpa using h1
    simp only [hc, Bool.not_true, Bool.false_eq_true, if_false,
      if_neg (fun hn : f ∉ ex => hn h1)]
    by_cases h2 : (p.getD "") = ""
    · simp [h2]
    · simp only [h2, if_false]
      have hsegs : 1 ≤ ((jsSplitDot (p.getD "")).reverse).length := by
        rw [List.length_reverse]
        exact List.length_pos.mpr (jsSplitDot_ne_nil (p.getD ""))
      have hcand : (List.range ((jsSplitDot (p.getD "")).reverse).length).map
          (fun depth => f ++ "." ++
            joinDot (((jsSplitDot (p.getD "")).reverse).take (depth + 1)))
          = ((List.range ((jsSplitDot (p.getD "")).reverse).length).map
              (fun i => i + 1)).map
              (fun depth => f ++ "." ++
                joinDot (((jsSplitDot (p.getD "")).reverse).take depth)) := by
        rw [List.map_map]
        rfl
      rw [hcand, find?_map_firstFree]
      cases hff : firstFreeCandidate
          (fun depth => f ++ "." ++
            joinDot (((jsSplitDot (p.getD "")).reverse).take depth)) ex
          ((List.range ((jsSplitDot (p.getD "")).reverse).length).map
            (fun i => i + 1)) with
      | some c => rfl
      | none =>
        exact getLastD_depth_candidates _ f _ hsegs
  · have hc : ex.contains f = false := by simpa using h1
    simp [hc, h1]

end Speckle
